import Mathlib

/-!
Verification of the spatial-index core (geometry.rs, rtree.rs) of the demo
repository, over a shallow embedding with Coordinate = Int.

The Rust trait machinery is embedded as plain functions:
the PartialOrd and PartialEq impls become cmp functions returning
Option Ordering or Bool, Box of Line becomes the two-variant inductive Line,
and the in-place mutations of Node methods become functions returning the
updated node.  Rust panics (the index-out-of-range in sweep and the unwrap
in partition) are modelled as the none case of an Option-valued result.
-/

set_option maxRecDepth 8000

namespace Demo

/-- A point in the cartesian coordinate system in a 2D plane (Coordinate = Int). -/
structure Point where
  x : Int
  y : Int
deriving DecidableEq

/-- Swap Less and Greater, keep Equal (the map at the end of the PartialOrd
impl for Node, and the Point-vs-Tile inversion). -/
def flipOrd : Ordering → Ordering
  | .lt => .gt
  | .gt => .lt
  | o => o

/-- Ord::cmp on Int. -/
def cmpc (a b : Int) : Ordering :=
  if a < b then .lt else if a = b then .eq else .gt

/-- Point::vertical_cmp: orders two points by their x coordinates. -/
def Point.vertical_cmp (p q : Point) : Ordering := cmpc p.x q.x

/-- Point::horizontal_cmp: orders two points by their y coordinates. -/
def Point.horizontal_cmp (p q : Point) : Ordering := cmpc p.y q.y

/-- PartialEq for Point: compares the coordinates. -/
def Point.eqPoint (p q : Point) : Bool :=
  decide (p.x = q.x) && decide (p.y = q.y)

/-- PartialOrd for Point (dominance order): equal iff same coordinates;
if one axis ties the other axis decides; otherwise both axes must agree
on a strict direction, else no relation. -/
def Point.cmp (p q : Point) : Option Ordering :=
  if p.x = q.x then some (cmpc p.y q.y)
  else if p.y = q.y then some (cmpc p.x q.x)
  else if p.x < q.x ∧ p.y < q.y then some .lt
  else if q.x < p.x ∧ q.y < p.y then some .gt
  else none

/-- Rust p <= q on points: partial_cmp matches Some(Less | Equal). -/
def Point.leP (p q : Point) : Bool :=
  match Point.cmp p q with
  | some .lt => true
  | some .eq => true
  | _ => false

/-- Rust p >= q on points: partial_cmp matches Some(Greater | Equal). -/
def Point.geP (p q : Point) : Bool :=
  match Point.cmp p q with
  | some .gt => true
  | some .eq => true
  | _ => false

/-- A Tile is a bounded rectangular area given by its bottom-left and
top-right corners. -/
structure Tile where
  bottom : Point
  top : Point
deriving DecidableEq

/-- The invariant checked by the assert in Tile::new (bottom <= top in the
dominance order, stated componentwise, which is equivalent). -/
def Tile.wf (t : Tile) : Prop :=
  t.bottom.x ≤ t.top.x ∧ t.bottom.y ≤ t.top.y

/-- Tile::from_point: the tile reduced to a single point. -/
def Tile.from_point (p : Point) : Tile := ⟨p, p⟩

/-- Tile::bottom_left_corner. -/
def Tile.bottom_left_corner (t : Tile) : Point := t.bottom

/-- Tile::top_right_corner. -/
def Tile.top_right_corner (t : Tile) : Point := t.top

/-- Tile::union: the smallest tile including both tiles. -/
def Tile.union (t u : Tile) : Tile :=
  ⟨⟨min t.bottom.x u.bottom.x, min t.bottom.y u.bottom.y⟩,
   ⟨max t.top.x u.top.x, max t.top.y u.top.y⟩⟩

/-- bounding_tile: smallest tile containing all tiles of the list, none for
the empty list (the Rust fold with an Option accumulator). -/
def bounding_tile (l : List Tile) : Option Tile :=
  l.foldl (fun acc tile =>
    match acc with
    | some t => some (t.union tile)
    | none => some tile) none

/-- PartialEq of Tile against Point: a tile equals a point iff it is reduced
to this point. -/
def Tile.eqPoint (t : Tile) (p : Point) : Bool :=
  decide (t.top = t.bottom) && decide (t.top = p)

/-- PartialOrd of Tile against Point: Equal if reduced to the point, Greater
if the point is between the corners (dominance order), Less otherwise. -/
def Tile.cmpPoint (t : Tile) (p : Point) : Option Ordering :=
  if t.eqPoint p then some .eq
  else if p.geP t.bottom && p.leP t.top then some .gt
  else some .lt

/-- PartialOrd of Point against Tile: the Tile-vs-Point result with Less and
Greater swapped. -/
def Point.cmpTile (p : Point) (t : Tile) : Option Ordering :=
  match t.cmpPoint p with
  | some .gt => some .lt
  | some .lt => some .gt
  | o => o

/-- Tile::vertical_cmp: orders two tiles by their x intervals; Equal when the
intervals overlap. -/
def Tile.vertical_cmp (t u : Tile) : Ordering :=
  match cmpc t.bottom.x u.bottom.x, cmpc t.top.x u.top.x with
  | .lt, .lt => .lt
  | .gt, .gt => .gt
  | _, _ => .eq

/-- Tile::horizontal_cmp: orders two tiles by their y intervals; Equal when
the intervals overlap. -/
def Tile.horizontal_cmp (t u : Tile) : Ordering :=
  match cmpc t.bottom.y u.bottom.y, cmpc t.top.y u.top.y with
  | .lt, .lt => .lt
  | .gt, .gt => .gt
  | _, _ => .eq

/-- The two Line variants (VerticalLine at some x, HorizontalLine at some y),
merged into one inductive standing for the Box of dyn Line trait objects. -/
inductive Line where
  | vertical (x : Int)
  | horizontal (y : Int)
deriving DecidableEq

/-- VerticalLine::at_point. -/
def VerticalLine.at_point (p : Point) : Line := .vertical p.x

/-- HorizontalLine::at_point. -/
def HorizontalLine.at_point (p : Point) : Line := .horizontal p.y

/-- PartialOrd of a line against a Tile: Less or Greater when both corners of
the tile are strictly on one side on the line axis, Equal otherwise. -/
def Line.cmpTile (l : Line) (t : Tile) : Option Ordering :=
  match l with
  | .vertical x =>
      match cmpc x t.bottom.x, cmpc x t.top.x with
      | .lt, .lt => some .lt
      | .gt, .gt => some .gt
      | _, _ => some .eq
  | .horizontal y =>
      match cmpc y t.bottom.y, cmpc y t.top.y with
      | .lt, .lt => some .lt
      | .gt, .gt => some .gt
      | _, _ => some .eq

/-- PartialEq of a line against a Tile: partial_cmp equals Some(Equal). -/
def Line.eqTile (l : Line) (t : Tile) : Bool :=
  match l.cmpTile t with
  | some .eq => true
  | _ => false

/-- PartialOrd of a line against a Point (comparison on the line's axis). -/
def Line.cmpPoint (l : Line) (p : Point) : Option Ordering :=
  match l with
  | .vertical x => some (cmpc x p.x)
  | .horizontal y => some (cmpc y p.y)

/-- A subnode entry: an internal tree node or a leaf with a point and data. -/
inductive Node (α : Type) where
  | leaf (point : Point) (data : α)
  | node (coverage : Tile) (vector : List (Node α))

/-- Node::coverage: the stored coverage of an interior node, the degenerate
tile at the point for a leaf. -/
def Node.coverage {α : Type} : Node α → Tile
  | .leaf p _ => Tile.from_point p
  | .node cov _ => cov

/-- PartialOrd of a Node against a Point: the point compared against the
node's extent, with Less and Greater flipped. -/
def Node.cmpPoint {α : Type} (n : Node α) (p : Point) : Option Ordering :=
  (match n with
   | .leaf q _ => p.cmpTile (Tile.from_point q)
   | .node cov _ => p.cmpTile cov).map flipOrd

/-- Rust node >= point: Node partial_cmp matches Some(Greater | Equal). -/
def Node.gePoint {α : Type} (n : Node α) (p : Point) : Bool :=
  match n.cmpPoint p with
  | some .gt => true
  | some .eq => true
  | _ => false

/-- PartialOrd of a Node against a line: the line compared against the node's
extent, with Less and Greater flipped. -/
def Node.cmpLine {α : Type} (n : Node α) (l : Line) : Option Ordering :=
  (match n with
   | .leaf q _ => l.cmpTile (Tile.from_point q)
   | .node cov _ => l.cmpTile cov).map flipOrd

/-- Node::sweep: chooses a split line for a set of coverage tiles.  Sorts the
tiles by bottom-left x (resp. y), puts the candidate line at the coordinate of
the sorted tile of index fill_factor, counts the tiles straddling each
candidate, and keeps the vertical line unless its cost is strictly larger.
The out-of-range index panic is modelled by none. -/
def Node.sweep (tile_set : List Tile) (fill_factor : Nat) : Option Line :=
  let tile_set_vertical := tile_set.mergeSort (fun a b => decide (a.bottom.x ≤ b.bottom.x))
  let tile_set_horizontal := tile_set.mergeSort (fun a b => decide (a.bottom.y ≤ b.bottom.y))
  match tile_set_vertical[fill_factor]?, tile_set_horizontal[fill_factor]? with
  | some tv, some th =>
      let vline := VerticalLine.at_point tv.bottom_left_corner
      let vertical_cost := (tile_set_vertical.filter (fun tile => vline.eqTile tile)).length
      let hline := HorizontalLine.at_point th.bottom_left_corner
      let horizontal_cost := (tile_set_horizontal.filter (fun tile => hline.eqTile tile)).length
      some (if vertical_cost > horizontal_cost then hline else vline)
  | _, _ => none

mutual

/-- Node::partition: splits a subtree along a line; children strictly before
the line stay, children strictly after move to the returned right subtree, and
straddling children are split recursively.  The unwrap on the left bounding
tile (empty left side) is modelled by none. -/
def Node.partition {α : Type} (line : Line) (fill_factor : Nat) : Node α → Option (Node α × Option (Node α))
  | .leaf q d => some (.leaf q d, none)
  | .node _ vector =>
      match Node.partitionList line fill_factor vector with
      | none => none
      | some (left_vec, right_vec) =>
          match bounding_tile (left_vec.map Node.coverage) with
          | none => none
          | some left_box =>
              let right_node : Option (Node α) :=
                match right_vec with
                | [n] => some n
                | _ => (bounding_tile (right_vec.map Node.coverage)).map
                    (fun tile => Node.node tile right_vec)
              some (.node left_box left_vec, right_node)

/-- The drain loop inside Node::partition, classifying each child against the
line in order. -/
def Node.partitionList {α : Type} (line : Line) (fill_factor : Nat) : List (Node α) → Option (List (Node α) × List (Node α))
  | [] => some ([], [])
  | c :: rest =>
      match c.cmpLine line with
      | some .lt =>
          match Node.partitionList line fill_factor rest with
          | none => none
          | some (lv, rv) => some (c :: lv, rv)
      | some .eq =>
          match Node.partition line fill_factor c with
          | none => none
          | some (c2, right_subnode) =>
              match Node.partitionList line fill_factor rest with
              | none => none
              | some (lv, rv) =>
                  some (c2 :: lv,
                    match right_subnode with
                    | some s => s :: rv
                    | none => rv)
      | _ =>
          match Node.partitionList line fill_factor rest with
          | none => none
          | some (lv, rv) => some (lv, c :: rv)

end

/-- Node::split_node: when the children count exceeds the fill factor, sweep
for a split line and partition; otherwise return the node unchanged with no
new sibling. -/
def Node.split_node {α : Type} (fill_factor : Nat) : Node α → Option (Node α × Option (Node α))
  | .leaf q d => some (.leaf q d, none)
  | .node cov vector =>
      if vector.length ≤ fill_factor then some (.node cov vector, none)
      else
        match Node.sweep (vector.map Node.coverage) fill_factor with
        | none => none
        | some line => Node.partition line fill_factor (.node cov vector)

mutual

/-- Node::insert: at a leaf, swap in the new value and return the old one; at
an interior node, recurse into the first child whose extent admits the point,
else append a new leaf at this level, then re-check the fill factor through
split_node.  Returns (old value, updated node, overflow sibling). -/
def Node.insert {α : Type} (fill_factor : Nat) (point : Point) (value : α) : Node α → Option (Option α × Node α × Option (Node α))
  | .leaf q data => some (some data, .leaf q value, none)
  | .node cov vector =>
      match Node.insertList fill_factor point value vector with
      | none => none
      | some (found, vector2) =>
          match found with
          | some (old_value, some ovf) =>
              match Node.split_node fill_factor (.node cov (vector2 ++ [ovf])) with
              | none => none
              | some (n2, sib) => some (old_value, n2, sib)
          | some (old_value, none) => some (old_value, .node cov vector2, none)
          | none =>
              match Node.split_node fill_factor (.node cov (vector2 ++ [.leaf point value])) with
              | none => none
              | some (n2, sib) => some (none, n2, sib)

/-- The find combinator of Node::insert: locate the first child that is >= the
point, recurse into it, and report (found result, updated children).  A none
found result means no child admitted the point. -/
def Node.insertList {α : Type} (fill_factor : Nat) (point : Point) (value : α) : List (Node α) → Option (Option (Option α × Option (Node α)) × List (Node α))
  | [] => some (none, [])
  | c :: rest =>
      if c.gePoint point then
        match Node.insert fill_factor point value c with
        | none => none
        | some (val, c2, ovf) => some (some (val, ovf), c2 :: rest)
      else
        match Node.insertList fill_factor point value rest with
        | none => none
        | some (found, rest2) => some (found, c :: rest2)

end

mutual

/-- Node::find: at a leaf return the stored data, at an interior node descend
into the first child that is >= the point. -/
def Node.find {α : Type} (point : Point) : Node α → Option α
  | .leaf _ data => some data
  | .node _ vector => Node.findList point vector

/-- The iter().find(..).and_then(..) of Node::find. -/
def Node.findList {α : Type} (point : Point) : List (Node α) → Option α
  | [] => none
  | c :: rest =>
      if c.gePoint point then Node.find point c else Node.findList point rest

end

mutual

/-- Node::find_mut: same descent as Node::find (the value reached through the
mutable reference). -/
def Node.find_mut {α : Type} (point : Point) : Node α → Option α
  | .leaf _ data => some data
  | .node _ vector => Node.findMutList point vector

/-- The iter_mut().find(..).and_then(..) of Node::find_mut. -/
def Node.findMutList {α : Type} (point : Point) : List (Node α) → Option α
  | [] => none
  | c :: rest =>
      if c.gePoint point then Node.find_mut point c else Node.findMutList point rest

end

mutual

/-- Number of nodes (leaves and interior nodes) of a subtree. -/
def Node.size {α : Type} : Node α → Nat
  | .leaf _ _ => 1
  | .node _ vector => 1 + Node.sizeList vector

/-- Sum of the sizes of a list of subtrees. -/
def Node.sizeList {α : Type} : List (Node α) → Nat
  | [] => 0
  | c :: rest => Node.size c + Node.sizeList rest

end

/-- A balanced tree storing points in a 2D plane: a fill factor and an
optional root. -/
structure RTree (α : Type) where
  fill_factor : Nat
  root : Option (Node α)

/-- RTree::new: empty tree with the default fill factor 4. -/
def RTree.new (α : Type) : RTree α := ⟨4, none⟩

/-- RTree::with_radix: empty tree with a user-chosen fill factor. -/
def RTree.with_radix (α : Type) (radix : Nat) : RTree α := ⟨radix, none⟩

/-- RTree::insert: on an empty tree install a leaf root; otherwise take the
root, insert into it, and put a node back only when an overflow sibling was
produced (in which case a new interior root covers both). -/
def RTree.insert {α : Type} (t : RTree α) (point : Point) (data : α) : Option (Option α × RTree α) :=
  match t.root with
  | some root =>
      match Node.insert t.fill_factor point data root with
      | none => none
      | some (ret_val, root2, overflow) =>
          match overflow with
          | some n =>
              let tile := n.coverage.union root2.coverage
              some (ret_val, ⟨t.fill_factor, some (.node tile [n, root2])⟩)
          | none => some (ret_val, ⟨t.fill_factor, none⟩)
  | none => some (none, ⟨t.fill_factor, some (.leaf point data)⟩)

/-- RTree::find. -/
def RTree.find {α : Type} (t : RTree α) (point : Point) : Option α :=
  t.root.bind (fun r => Node.find point r)

/-- RTree::find_mut. -/
def RTree.find_mut {α : Type} (t : RTree α) (point : Point) : Option α :=
  t.root.bind (fun r => Node.find_mut point r)

/-- Number of nodes of the whole tree. -/
def RTree.size {α : Type} (t : RTree α) : Nat :=
  match t.root with
  | none => 0
  | some r => r.size

/-- A sequence of RTree::insert calls, none if any of them hits a modelled
panic. -/
def RTree.insertAll {α : Type} (t : RTree α) : List (Point × α) → Option (RTree α)
  | [] => some t
  | (p, v) :: rest =>
      match t.insert p v with
      | none => none
      | some (_, t2) => RTree.insertAll t2 rest

/-- Number of children of a node (0 for a leaf). -/
def Node.childCount {α : Type} : Node α → Nat
  | .leaf _ _ => 0
  | .node _ vector => vector.length

/-- The root is absent or a single leaf. -/
def rootNoneOrLeaf {α : Type} (t : RTree α) : Prop :=
  t.root = none ∨ ∃ p v, t.root = some (Node.leaf p v)

/-- Well-formed tree: every stored coverage tile has its bottom corner below
its top corner (the invariant enforced by Tile::new at construction). -/
inductive Node.WF {α : Type} : Node α → Prop
  | leaf (p : Point) (d : α) : Node.WF (.leaf p d)
  | node (cov : Tile) (vector : List (Node α)) (hcov : cov.wf)
      (hch : ∀ c ∈ vector, Node.WF c) : Node.WF (.node cov vector)

/-- Classification of a child extent against a split line, following the
spec's words (sections 3 and 4.4): Less when the extent lies strictly before
the line on the line's axis, Greater when strictly after, Equal when the
extent straddles the line. -/
def specClassify (line : Line) (ext : Tile) : Ordering :=
  match line with
  | .vertical x => if ext.top.x < x then .lt else if x < ext.bottom.x then .gt else .eq
  | .horizontal y => if ext.top.y < y then .lt else if y < ext.bottom.y then .gt else .eq

/-- Union of a non-empty list of tiles, following the spec's words (the left
node's coverage is "the union of all its retained children's coverage"). -/
def unionAll : List Tile → Option Tile
  | [] => none
  | t :: rest => some (rest.foldl Tile.union t)

mutual

/-- Partition as described by the spec, section 4.4: a Leaf returns no right
sibling immediately; for an Interior node every child is classified against
the line, a Less child stays in the left node, a Greater child moves to the
right side, an Equal (straddling) child is recursively partitioned with its
left remainder staying in place and its right remainder (if any) added to the
right side; afterwards the left coverage is the union of the retained
children's coverages, and the right sibling is the single node itself,
a new Interior node wrapping the right children, or nothing, according to
whether the right side has one, several, or no elements. -/
def specPartition {α : Type} (line : Line) (fill_factor : Nat) : Node α → Option (Node α × Option (Node α))
  | .leaf q d => some (.leaf q d, none)
  | .node _ vector =>
      match specPartitionList line fill_factor vector with
      | none => none
      | some (lv, rv) =>
          match unionAll (lv.map Node.coverage) with
          | none => none
          | some lcov =>
              let sib : Option (Node α) :=
                match rv with
                | [] => none
                | [n] => some n
                | _ => (unionAll (rv.map Node.coverage)).map (fun tile => Node.node tile rv)
              some (.node lcov lv, sib)

/-- The per-child classification loop of the spec's partition description. -/
def specPartitionList {α : Type} (line : Line) (fill_factor : Nat) : List (Node α) → Option (List (Node α) × List (Node α))
  | [] => some ([], [])
  | c :: rest =>
      match specClassify line c.coverage with
      | .lt =>
          match specPartitionList line fill_factor rest with
          | none => none
          | some (lv, rv) => some (c :: lv, rv)
      | .gt =>
          match specPartitionList line fill_factor rest with
          | none => none
          | some (lv, rv) => some (lv, c :: rv)
      | .eq =>
          match specPartition line fill_factor c with
          | none => none
          | some (c2, right_subnode) =>
              match specPartitionList line fill_factor rest with
              | none => none
              | some (lv, rv) =>
                  some (c2 :: lv,
                    match right_subnode with
                    | some s => s :: rv
                    | none => rv)

end

/-- Split-line selection as described by the spec, section 4.3: sort the
tiles by the x-coordinate of their bottom-left corners, place a vertical line
at the x-coordinate of the sorted tile of index fill_factor, and count the
tiles of the collection classified Equal against that line; symmetrically for
y and a horizontal line; the line with the strictly lower straddle cost is
chosen and ties favor the vertical line. -/
def specSweep (tiles : List Tile) (fill_factor : Nat) : Option Line :=
  let sortedX := tiles.mergeSort (fun a b => decide (a.bottom.x ≤ b.bottom.x))
  let sortedY := tiles.mergeSort (fun a b => decide (a.bottom.y ≤ b.bottom.y))
  match sortedX[fill_factor]?, sortedY[fill_factor]? with
  | some tx, some ty =>
      let vline := Line.vertical tx.bottom.x
      let hline := Line.horizontal ty.bottom.y
      let vertical_cost := tiles.countP (fun t => decide (specClassify vline t = Ordering.eq))
      let horizontal_cost := tiles.countP (fun t => decide (specClassify hline t = Ordering.eq))
      some (if vertical_cost ≤ horizontal_cost then vline else hline)
  | _, _ => none

/-! Theorems. -/

/-- C1: the round-trip property fails on the code.  RTree::insert takes the
root out and only puts a node back when an overflow sibling is produced;
since a Leaf root never overflows, the second insert drops the whole tree,
and Node::find at a Leaf never compares the stored point with the query.
After inserting the distinct points (0,0) and (1,1) into an empty tree with
fill factor 4, find returns none on both inserted points; after inserting
only (0,0), find on the never-inserted point (9,9) returns the value stored
for (0,0). -/
theorem spec_c1 :
    ((RTree.insertAll (RTree.with_radix Nat 4) [(⟨0,0⟩, 0), (⟨1,1⟩, 1)]).map
        (fun t => (t.find ⟨0,0⟩, t.find ⟨1,1⟩)) = some (none, none))
  ∧ ((RTree.insertAll (RTree.with_radix Nat 4) [(⟨0,0⟩, 0)]).map
        (fun t => t.find ⟨9,9⟩) = some (some 0)) :=
  ⟨rfl, rfl⟩

/-- C3: the replacement property fails on the code.  On an empty tree with
fill factor 4, insert((0,0), 10) creates a Leaf root; insert((0,0), 20) does
return the old value some 10 as the claim states, but the root is dropped
(no overflow is produced), so the subsequent find((0,0)) returns none instead
of some 20 and the node count falls from 1 to 0 instead of staying equal. -/
theorem spec_c3 :
    ((RTree.with_radix Nat 4).insert ⟨0,0⟩ 10 = some (none, ⟨4, some (.leaf ⟨0,0⟩ 10)⟩))
  ∧ ((RTree.mk 4 (some (.leaf ⟨0,0⟩ 10))).insert ⟨0,0⟩ 20 = some (some 10, ⟨4, none⟩))
  ∧ ((RTree.mk 4 (none : Option (Node Nat))).find ⟨0,0⟩ = none)
  ∧ (RTree.size (⟨4, some (.leaf ⟨0,0⟩ 10)⟩ : RTree Nat) = 1)
  ∧ (RTree.size (⟨4, none⟩ : RTree Nat) = 0) :=
  ⟨rfl, rfl, rfl, rfl, rfl⟩

/-- C4: the coverage invariant fails on the code.  Node::insert pushes a new
Leaf into an interior node's children without updating the stored coverage,
and split_node does nothing when the children count stays within the fill
factor.  Starting from an interior node whose coverage (0,0)-(1,1) equals the
union of its two leaf children, inserting (5,5) with fill factor 4 leaves the
stored coverage at (0,0)-(1,1) while the union of the children's coverages
becomes (0,0)-(5,5). -/
theorem spec_c4 :
    (bounding_tile ([Node.leaf ⟨0,0⟩ 0, Node.leaf ⟨1,1⟩ (1:Nat)].map Node.coverage)
      = some ⟨⟨0,0⟩,⟨1,1⟩⟩)
  ∧ (Node.insert 4 ⟨5,5⟩ 2 (.node ⟨⟨0,0⟩,⟨1,1⟩⟩ [.leaf ⟨0,0⟩ 0, .leaf ⟨1,1⟩ 1])
      = some (none, .node ⟨⟨0,0⟩,⟨1,1⟩⟩
          [.leaf ⟨0,0⟩ 0, .leaf ⟨1,1⟩ 1, .leaf ⟨5,5⟩ 2], none))
  ∧ (bounding_tile ([Node.leaf ⟨0,0⟩ 0, Node.leaf ⟨1,1⟩ 1, Node.leaf ⟨5,5⟩ (2:Nat)].map Node.coverage)
      = some ⟨⟨0,0⟩,⟨5,5⟩⟩)
  ∧ ((⟨⟨0,0⟩,⟨1,1⟩⟩ : Tile) ≠ ⟨⟨0,0⟩,⟨5,5⟩⟩) :=
  ⟨rfl, rfl, rfl, by decide⟩

/-- C5: the fill-factor invariant fails on the code.  Inserting (0,4) into an
interior node with the four leaf children (0,0)..(0,3) and fill factor 4
overflows the node to five children; sweep picks the horizontal line y = 4
(vertical straddle cost 5 against horizontal cost 1), but every child is
classified Less or Equal against that line, so partition keeps all five
children on the left and produces no right sibling: the completed insert
leaves an interior node with 5 > 4 children and no overflow. -/
theorem spec_c5 :
    (Node.insert 4 ⟨0,4⟩ 4
        (.node ⟨⟨0,0⟩,⟨0,3⟩⟩ [.leaf ⟨0,0⟩ 0, .leaf ⟨0,1⟩ 1, .leaf ⟨0,2⟩ 2, .leaf ⟨0,3⟩ 3])
      = some (none, .node ⟨⟨0,0⟩,⟨0,4⟩⟩
          [.leaf ⟨0,0⟩ 0, .leaf ⟨0,1⟩ 1, .leaf ⟨0,2⟩ 2, .leaf ⟨0,3⟩ 3, .leaf ⟨0,4⟩ 4], none))
  ∧ (Node.childCount (.node ⟨⟨0,0⟩,⟨0,4⟩⟩
        [.leaf ⟨0,0⟩ 0, .leaf ⟨0,1⟩ 1, .leaf ⟨0,2⟩ 2, .leaf ⟨0,3⟩ 3, .leaf ⟨0,4⟩ (4:Nat)]) = 5)
  ∧ 4 < 5 := by
  refine ⟨?_, rfl, by omega⟩
  simp [Node.insert, Node.insertList, Node.gePoint, Node.cmpPoint, Point.cmpTile, Tile.cmpPoint,
    Tile.eqPoint, Point.geP, Point.leP, Point.cmp, cmpc, Node.split_node, Node.sweep,
    List.mergeSort, Node.partition, Node.partitionList, Node.cmpLine, Line.cmpTile,
    Tile.from_point, bounding_tile, Node.coverage, flipOrd, Line.eqTile,
    VerticalLine.at_point, HorizontalLine.at_point, Tile.bottom_left_corner, Tile.union]

/-- C6: at a Leaf, Node::find and Node::find_mut return the stored value for
every query point, without comparing the Leaf's point with the query; hence
an RTree whose root is a Leaf storing p answers some value to find and
find_mut on every query point q, including every q different from p. -/
theorem spec_c6 : ∀ (p q : Point) (d f : Nat),
    Node.find q (Node.leaf p d) = some d
  ∧ Node.find_mut q (Node.leaf p d) = some d
  ∧ (RTree.mk f (some (Node.leaf p d))).find q = some d
  ∧ (RTree.mk f (some (Node.leaf p d))).find_mut q = some d :=
  fun _ _ _ _ => ⟨rfl, rfl, rfl, rfl⟩

/-- Structure equality of points is componentwise. -/
theorem point_eq_iff (p q : Point) : p = q ↔ (p.x = q.x ∧ p.y = q.y) := by
  cases p; cases q; simp

/-- The Rust >= on points is componentwise dominance. -/
theorem Point.geP_iff (p q : Point) : p.geP q = true ↔ (q.x ≤ p.x ∧ q.y ≤ p.y) := by
  simp only [Point.geP, Point.cmp, cmpc]
  split_ifs <;> simp_all <;> omega

/-- The Rust <= on points is componentwise dominance. -/
theorem Point.leP_iff (p q : Point) : p.leP q = true ↔ (p.x ≤ q.x ∧ p.y ≤ q.y) := by
  simp only [Point.leP, Point.cmp, cmpc]
  split_ifs <;> simp_all <;> omega

/-- C7: the dominance order on points.  Equality holds iff both coordinates
are equal; the comparison yields Less (resp. Greater) iff one axis ties and
the other differs in the corresponding direction or both axes differ in that
direction; in every other case it yields none (the comparison is a total
Lean function, so it can never panic); Less in both directions at once is
impossible; and the pair (5,2), (4,3) is incomparable. -/
theorem spec_c7 :
    (∀ p q : Point,
      ((Point.eqPoint p q = true) ↔ (p.x = q.x ∧ p.y = q.y))
      ∧ (Point.cmp p q = some .lt ↔
          ((p.x = q.x ∧ p.y < q.y) ∨ (p.y = q.y ∧ p.x < q.x) ∨ (p.x < q.x ∧ p.y < q.y)))
      ∧ (Point.cmp p q = some .gt ↔
          ((p.x = q.x ∧ q.y < p.y) ∨ (p.y = q.y ∧ q.x < p.x) ∨ (q.x < p.x ∧ q.y < p.y)))
      ∧ (Point.cmp p q = none ↔
          (p.x ≠ q.x ∧ p.y ≠ q.y ∧ ¬(p.x < q.x ∧ p.y < q.y) ∧ ¬(q.x < p.x ∧ q.y < p.y)))
      ∧ ¬(Point.cmp p q = some .lt ∧ Point.cmp q p = some .lt))
    ∧ Point.cmp ⟨5,2⟩ ⟨4,3⟩ = none := by
  have hlt : ∀ p q : Point, Point.cmp p q = some .lt ↔
      ((p.x = q.x ∧ p.y < q.y) ∨ (p.y = q.y ∧ p.x < q.x) ∨ (p.x < q.x ∧ p.y < q.y)) := by
    intro p q
    simp only [Point.cmp, cmpc]
    split_ifs <;> simp_all <;> try omega
  have hgt : ∀ p q : Point, Point.cmp p q = some .gt ↔
      ((p.x = q.x ∧ q.y < p.y) ∨ (p.y = q.y ∧ q.x < p.x) ∨ (q.x < p.x ∧ q.y < p.y)) := by
    intro p q
    simp only [Point.cmp, cmpc]
    split_ifs <;> simp_all <;> try omega
  have hnone : ∀ p q : Point, Point.cmp p q = none ↔
      (p.x ≠ q.x ∧ p.y ≠ q.y ∧ ¬(p.x < q.x ∧ p.y < q.y) ∧ ¬(q.x < p.x ∧ q.y < p.y)) := by
    intro p q
    simp only [Point.cmp, cmpc]
    split_ifs <;> simp_all <;> try omega
  refine ⟨fun p q => ⟨by simp [Point.eqPoint], hlt p q, hgt p q, hnone p q, ?_⟩, rfl⟩
  rintro ⟨h1, h2⟩
  rw [hlt] at h1 h2
  omega

/-- C8: the containment order of a Tile against a Point.  The comparison is
Equal iff the tile is reduced to exactly the query point, Greater iff the
point lies within the closed box (componentwise) and the tile is not that
degenerate tile, Less iff the point is outside the closed box; the
Point-against-Tile comparison is the exact algebraic inverse (Less and
Greater swapped, Equal kept); and on the tile (0,0)-(10,10) the point (5,5)
compares Greater, the point (15,5) compares Less, while the degenerate tile
at (3,3) compares Equal to the point (3,3). -/
theorem spec_c8 :
    (∀ (t : Tile) (p : Point),
      (Tile.cmpPoint t p = some .eq ↔ (t.top = t.bottom ∧ t.top = p))
      ∧ (Tile.cmpPoint t p = some .gt ↔
          ((t.bottom.x ≤ p.x ∧ p.x ≤ t.top.x ∧ t.bottom.y ≤ p.y ∧ p.y ≤ t.top.y)
            ∧ ¬(t.top = t.bottom ∧ t.top = p)))
      ∧ (Tile.cmpPoint t p = some .lt ↔
          ¬(t.bottom.x ≤ p.x ∧ p.x ≤ t.top.x ∧ t.bottom.y ≤ p.y ∧ p.y ≤ t.top.y))
      ∧ (Point.cmpTile p t = (Tile.cmpPoint t p).map flipOrd))
    ∧ Tile.cmpPoint ⟨⟨0,0⟩,⟨10,10⟩⟩ ⟨5,5⟩ = some .gt
    ∧ Tile.cmpPoint ⟨⟨0,0⟩,⟨10,10⟩⟩ ⟨15,5⟩ = some .lt
    ∧ Tile.cmpPoint ⟨⟨3,3⟩,⟨3,3⟩⟩ ⟨3,3⟩ = some .eq := by
  have hmap : ∀ (t : Tile) (p : Point), Point.cmpTile p t = (Tile.cmpPoint t p).map flipOrd := by
    intro t p
    rcases h : Tile.cmpPoint t p with _ | o
    · simp [Point.cmpTile, h]
    · cases o <;> simp [Point.cmpTile, h, flipOrd]
  refine ⟨fun t p => ⟨?_, ?_, ?_, hmap t p⟩, rfl, rfl, rfl⟩
  all_goals
    simp only [Tile.cmpPoint, Tile.eqPoint, Bool.and_eq_true, decide_eq_true_eq,
      Point.geP_iff, Point.leP_iff]
    split_ifs <;> simp_all [point_eq_iff] <;> omega

/-- One RTree::insert step preserves the root-is-none-or-leaf property. -/
theorem insert_rootNoneOrLeaf {α : Type} (t : RTree α) (p : Point) (v : α)
    (val : Option α) (t2 : RTree α) (h1 : rootNoneOrLeaf t)
    (h2 : t.insert p v = some (val, t2)) : rootNoneOrLeaf t2 := by
  obtain ⟨f, root⟩ := t
  rcases h1 with h | ⟨q, w, h⟩ <;> simp only at h <;> subst h
  · simp only [RTree.insert, Option.some.injEq, Prod.mk.injEq] at h2
    right
    exact ⟨p, v, by rw [← h2.2]⟩
  · simp only [RTree.insert, Node.insert, Option.some.injEq, Prod.mk.injEq] at h2
    left
    rw [← h2.2]

/-- Any sequence of RTree::insert calls from a tree whose root is none or a
leaf ends with a root that is none or a leaf. -/
theorem insertAll_rootNoneOrLeaf {α : Type} :
    ∀ (ops : List (Point × α)) (t t' : RTree α), rootNoneOrLeaf t →
      RTree.insertAll t ops = some t' → rootNoneOrLeaf t' := by
  intro ops
  induction ops with
  | nil =>
      intro t t' h1 h2
      simp only [RTree.insertAll, Option.some.injEq] at h2
      rw [← h2]; exact h1
  | cons op rest ih =>
      intro t t' h1 h2
      obtain ⟨p, v⟩ := op
      simp only [RTree.insertAll] at h2
      rcases hstep : t.insert p v with _ | ⟨val, t2⟩
      · rw [hstep] at h2; cases h2
      · rw [hstep] at h2
        exact ih t2 t' (insert_rootNoneOrLeaf t p v val t2 h1 hstep) h2

/-- C2: as implemented, the root of an RTree is only ever absent or a single
Leaf.  Every insert sequence from the empty tree ends with such a root (in
particular an Interior root is never created), and an insert into a non-empty
tree whose descent produces no overflow leaves the root absent, dropping the
previous contents. -/
theorem spec_c2 :
    (∀ (f : Nat) (ops : List (Point × Nat)) (t' : RTree Nat),
        RTree.insertAll ⟨f, none⟩ ops = some t' →
        rootNoneOrLeaf t' ∧ ∀ cov cs, t'.root ≠ some (Node.node cov cs))
  ∧ (∀ (f : Nat) (r : Node Nat) (p : Point) (v : Nat) (val : Option Nat) (r2 : Node Nat),
        Node.insert f p v r = some (val, r2, none) →
        RTree.insert ⟨f, some r⟩ p v = some (val, ⟨f, none⟩)) := by
  constructor
  · intro f ops t' h
    have hr := insertAll_rootNoneOrLeaf ops ⟨f, none⟩ t' (Or.inl rfl) h
    refine ⟨hr, ?_⟩
    intro cov cs hcontra
    rcases hr with h' | ⟨q, w, h'⟩ <;> rw [h'] at hcontra <;> simp at hcontra
  · intro f r p v val r2 h
    simp only [RTree.insert, h]

/-- Witness for C2 at concrete inputs: two inserts from the empty tree end
with an absent root, and an overflow-free insert into a leaf-rooted tree
leaves the root absent. -/
theorem spec_c2_witness :
    (rootNoneOrLeaf (⟨4, none⟩ : RTree Nat)
      ∧ ∀ cov cs, (⟨4, none⟩ : RTree Nat).root ≠ some (Node.node cov cs))
  ∧ RTree.insert ⟨4, some (Node.leaf ⟨0,0⟩ 0)⟩ ⟨1,1⟩ 5 = some (some 0, ⟨4, none⟩) :=
  ⟨spec_c2.1 4 [((⟨0,0⟩ : Point), 0), (⟨1,1⟩, 1)] ⟨4, none⟩ rfl,
   spec_c2.2 4 (Node.leaf ⟨0,0⟩ 0) ⟨1,1⟩ 5 (some 0) (Node.leaf ⟨0,0⟩ 5) rfl⟩

/-- The Option-accumulator fold of bounding_tile equals the fold of the
spec's non-empty union. -/
theorem bounding_tile_eq_unionAll : ∀ l : List Tile, bounding_tile l = unionAll l := by
  have aux : ∀ (l : List Tile) (t : Tile),
      List.foldl (fun acc tile => match acc with
        | some u => some (u.union tile)
        | none => some tile) (some t) l = some (l.foldl Tile.union t) := by
    intro l
    induction l with
    | nil => intro t; rfl
    | cons a rest ih => intro t; exact ih (t.union a)
  intro l
  cases l with
  | nil => rfl
  | cons t rest => exact aux rest t

/-- For a well-formed tile, the flipped line-against-tile comparison computes
exactly the spec's three-way classification of the extent against the line. -/
theorem lineCmpTile_flip_spec (l : Line) (t : Tile) (h : t.wf) :
    (l.cmpTile t).map flipOrd = some (specClassify l t) := by
  obtain ⟨hx, hy⟩ := h
  cases l <;>
    simp only [Line.cmpTile, specClassify, cmpc] <;>
    split_ifs <;> simp_all [flipOrd] <;> omega

/-- A well-formed node's own coverage tile is well-formed. -/
theorem Node.WF.coverage_wf {α : Type} {n : Node α} (h : n.WF) : (Node.coverage n).wf := by
  cases h with
  | leaf p d => exact ⟨le_refl _, le_refl _⟩
  | node cov vector hcov hch => exact hcov

/-- A node's comparison against a line computes the spec's classification of
its coverage extent. -/
theorem cmpLine_spec {α : Type} (c : Node α) (l : Line) (h : (Node.coverage c).wf) :
    c.cmpLine l = some (specClassify l (Node.coverage c)) := by
  cases c with
  | leaf q d => exact lineCmpTile_flip_spec l (Tile.from_point q) h
  | node cov vector => exact lineCmpTile_flip_spec l cov h

mutual

/-- Node::partition computes exactly the spec-described partition on
well-formed subtrees. -/
theorem partition_eq_spec {α : Type} (line : Line) (fill_factor : Nat) :
    ∀ (n : Node α), n.WF → Node.partition line fill_factor n = specPartition line fill_factor n
  | .leaf _ _, _ => rfl
  | .node cov vector, h => by
      have hch : ∀ c ∈ vector, Node.WF c := by
        cases h with
        | node _ _ hcov hch => exact hch
      have hl := partitionList_eq_spec line fill_factor vector hch
      simp only [Node.partition, specPartition, hl]
      cases hp : specPartitionList line fill_factor vector with
      | none => rfl
      | some pr =>
          obtain ⟨lv, rv⟩ := pr
          dsimp only
          rw [bounding_tile_eq_unionAll]
          cases hu : unionAll (lv.map Node.coverage) with
          | none => rfl
          | some lcov =>
              cases rv with
              | nil => rfl
              | cons a tl =>
                  cases tl with
                  | nil => rfl
                  | cons b tl2 => rw [bounding_tile_eq_unionAll]

/-- The child-classification loop of Node::partition computes exactly the
spec-described loop on lists of well-formed subtrees. -/
theorem partitionList_eq_spec {α : Type} (line : Line) (fill_factor : Nat) :
    ∀ (cs : List (Node α)), (∀ c ∈ cs, Node.WF c) →
      Node.partitionList line fill_factor cs = specPartitionList line fill_factor cs
  | [], _ => rfl
  | c :: rest, h => by
      have hc : Node.WF c := h c (List.mem_cons_self c rest)
      have hrest : ∀ x ∈ rest, Node.WF x := fun x hx => h x (List.mem_cons_of_mem c hx)
      have hcl := cmpLine_spec c line hc.coverage_wf
      have hrec := partitionList_eq_spec line fill_factor rest hrest
      simp only [Node.partitionList, specPartitionList, hcl, hrec]
      cases specClassify line (Node.coverage c) with
      | lt => rfl
      | eq => rw [partition_eq_spec line fill_factor c hc]
      | gt => rfl

end

/-- C9: Node::partition conforms to the spec's description of the partition
procedure (section 4.4) on every well-formed subtree: a Leaf returns no right
sibling immediately; each child of an Interior node classified Less stays in
the left node, Greater moves to the right side, and Equal (straddling) is
recursively partitioned with the left remainder staying in place and the
right remainder (if any) added to the right side (a straddling Leaf child
stays left and is never duplicated); the left coverage becomes the union of
the retained children's coverages, and the right sibling is the single node
itself, a new wrapping Interior node with coverage their union, or none,
according to the size of the right side (none meaning no overflow). -/
theorem spec_c9 (line : Line) (fill_factor : Nat) (n : Node Nat) (h : n.WF) :
    Node.partition line fill_factor n = specPartition line fill_factor n :=
  partition_eq_spec line fill_factor n h

/-- Witness for C9: the overflowing five-leaf node of the C5 scenario,
partitioned along the horizontal line y = 4. -/
theorem spec_c9_witness :
    Node.partition (Line.horizontal 4) 4
        (Node.node ⟨⟨0,0⟩,⟨0,3⟩⟩
          [Node.leaf ⟨0,0⟩ (0:Nat), Node.leaf ⟨0,1⟩ 1, Node.leaf ⟨0,2⟩ 2,
           Node.leaf ⟨0,3⟩ 3, Node.leaf ⟨0,4⟩ 4])
      = specPartition (Line.horizontal 4) 4
        (Node.node ⟨⟨0,0⟩,⟨0,3⟩⟩
          [Node.leaf ⟨0,0⟩ (0:Nat), Node.leaf ⟨0,1⟩ 1, Node.leaf ⟨0,2⟩ 2,
           Node.leaf ⟨0,3⟩ 3, Node.leaf ⟨0,4⟩ 4]) :=
  spec_c9 (Line.horizontal 4) 4 _ (by
    refine Node.WF.node _ _ ⟨by decide, by decide⟩ ?_
    intro c hc
    simp only [List.mem_cons, List.not_mem_nil, or_false] at hc
    rcases hc with rfl | rfl | rfl | rfl | rfl <;> exact Node.WF.leaf _ _)

/-- For a well-formed tile, PartialEq of a line against a tile decides the
spec's straddle classification. -/
theorem eqTile_spec (l : Line) (t : Tile) (h : t.wf) :
    l.eqTile t = decide (specClassify l t = Ordering.eq) := by
  have hmap := lineCmpTile_flip_spec l t h
  rcases ho : l.cmpTile t with _ | o
  · rw [ho] at hmap; simp at hmap
  · rw [ho] at hmap
    simp only [Option.map_some', Option.some.injEq] at hmap
    cases o <;> simp [Line.eqTile, ho, ← hmap, flipOrd]

/-- The straddle count of Node::sweep (filter over the sorted tiles) equals
the spec's straddle cost (count over the original collection). -/
theorem straddle_cost_eq (l : Line) (tiles : List Tile) (le : Tile → Tile → Bool)
    (h : ∀ t ∈ tiles, t.wf) :
    ((tiles.mergeSort le).filter (fun tile => l.eqTile tile)).length
      = tiles.countP (fun t => decide (specClassify l t = Ordering.eq)) := by
  rw [← List.countP_eq_length_filter]
  rw [(List.mergeSort_perm tiles le).countP_eq]
  apply List.countP_congr
  intro t ht
  rw [eqTile_spec l t (h t ht)]

/-- C10: Node::sweep conforms to the spec's description of the split-line
selection (section 4.3) whenever every tile of the collection is well-formed:
the vertical candidate sits at the x-coordinate of the bottom-left corner of
the tile of index fill_factor in the x-sorted order and its cost is the
number of tiles straddling it, symmetrically for the horizontal candidate,
and the line with the strictly lower straddle cost wins with ties going to
the vertical line. -/
theorem spec_c10 (tiles : List Tile) (fill_factor : Nat)
    (h : ∀ t ∈ tiles, t.wf) :
    Node.sweep tiles fill_factor = specSweep tiles fill_factor := by
  unfold Node.sweep specSweep
  dsimp only [VerticalLine.at_point, HorizontalLine.at_point, Tile.bottom_left_corner]
  cases hx : (tiles.mergeSort fun a b => decide (a.bottom.x ≤ b.bottom.x))[fill_factor]? with
  | none => rfl
  | some tx =>
      cases hy : (tiles.mergeSort fun a b => decide (a.bottom.y ≤ b.bottom.y))[fill_factor]? with
      | none => rfl
      | some ty =>
          dsimp only
          rw [straddle_cost_eq (Line.vertical tx.bottom.x) tiles _ h,
            straddle_cost_eq (Line.horizontal ty.bottom.y) tiles _ h]
          by_cases hc :
              tiles.countP (fun t => decide (specClassify (Line.vertical tx.bottom.x) t = Ordering.eq))
                ≤ tiles.countP (fun t => decide (specClassify (Line.horizontal ty.bottom.y) t = Ordering.eq))
          · rw [if_neg (by omega), if_pos hc]
          · rw [if_pos (by omega), if_neg hc]

/-- Witness for C10: the five degenerate tiles of the C5 scenario, for which
sweep picks the horizontal line y = 4. -/
theorem spec_c10_witness :
    Node.sweep [⟨⟨0,0⟩,⟨0,0⟩⟩, ⟨⟨0,1⟩,⟨0,1⟩⟩, ⟨⟨0,2⟩,⟨0,2⟩⟩, ⟨⟨0,3⟩,⟨0,3⟩⟩, ⟨⟨0,4⟩,⟨0,4⟩⟩] 4
      = specSweep [⟨⟨0,0⟩,⟨0,0⟩⟩, ⟨⟨0,1⟩,⟨0,1⟩⟩, ⟨⟨0,2⟩,⟨0,2⟩⟩, ⟨⟨0,3⟩,⟨0,3⟩⟩, ⟨⟨0,4⟩,⟨0,4⟩⟩] 4 :=
  spec_c10 _ 4 (by
    intro t ht
    simp only [List.mem_cons, List.not_mem_nil, or_false] at ht
    rcases ht with rfl | rfl | rfl | rfl | rfl <;> exact ⟨by decide, by decide⟩)

end Demo
